import Mathlib

set_option maxRecDepth 100000
set_option linter.unusedVariables false

/-!
Verification of the PQCnet contracts core: a shallow embedding of the demo
ML-KEM / ML-DSA adapters (src/pqcnet-contracts/src/adapters.rs) together with
spec-modelled definitions of the threshold secret-sharing engine and the key
rotation manager, and proofs of the specified properties.
-/

/-! ### The finite field with 256 elements, in its byte representation -/

/-- An element of the 256-element finite field GF(2^8), represented as a byte:
bits are coefficients of a binary polynomial, reduced modulo
x^8 + x^4 + x^3 + x + 1 (0x11B). -/
structure GF where
  val : Nat
  isLt : val < 256

theorem GF.ext_val : ∀ {a b : GF}, a.val = b.val → a = b
  | ⟨_, _⟩, ⟨_, _⟩, rfl => rfl

instance : DecidableEq GF := fun a b =>
  decidable_of_iff (a.val = b.val) ⟨GF.ext_val, fun h => h ▸ rfl⟩

def gfEquiv : Fin 256 ≃ GF where
  toFun f := ⟨f.val, f.isLt⟩
  invFun a := ⟨a.val, a.isLt⟩
  left_inv _ := rfl
  right_inv _ := rfl

instance : Fintype GF := Fintype.ofEquiv (Fin 256) gfEquiv

theorem xor_lt_256 {a b : Nat} (ha : a < 256) (hb : b < 256) : a ^^^ b < 256 := by
  have h : (256 : Nat) = 2 ^ 8 := by norm_num
  rw [h] at ha hb ⊢
  exact Nat.xor_lt_two_pow ha hb

/-- Addition in GF(2^8): bitwise xor of the byte representations. -/
def gadd (a b : GF) : GF := ⟨a.val ^^^ b.val, xor_lt_256 a.isLt b.isLt⟩

def gf0 : GF := ⟨0, by norm_num⟩

def gf1 : GF := ⟨1, by norm_num⟩

/-- Multiplication by x in GF(2^8): shift left, reduce by 0x11B when the
degree-8 bit appears. -/
def xtimes (a : GF) : GF :=
  ⟨((a.val <<< 1) ^^^ (if a.val.testBit 7 then 0x11B else 0)) % 256,
   Nat.mod_lt _ (by norm_num)⟩

/-- Russian-peasant carry-less multiplication: decompose the first factor into
bits, repeatedly multiplying the second factor by x. -/
def mulAux : Nat → Nat → GF → GF → GF
  | 0, _, _, acc => acc
  | (k+1), a, y, acc =>
      mulAux k (a >>> 1) (xtimes y) (if a % 2 = 1 then gadd acc y else acc)

/-- Multiplication in GF(2^8). -/
def gmul (a b : GF) : GF := mulAux 8 a.val b gf0

/-- Multiplicative-inverse table for GF(2^8) (index 0 maps to 0). -/
def ginvTable : List Nat :=
  [0,1,141,246,203,82,123,209,232,79,41,192,176,225,229,199,
   116,180,170,75,153,43,96,95,88,63,253,204,255,64,238,178,
   58,110,90,241,85,77,168,201,193,10,152,21,48,68,162,194,
   44,69,146,108,243,57,102,66,242,53,32,111,119,187,89,25,
   29,254,55,103,45,49,245,105,167,100,171,19,84,37,233,9,
   237,92,5,202,76,36,135,191,24,62,34,240,81,236,97,23,
   22,94,175,211,73,166,54,67,244,71,145,223,51,147,33,59,
   121,183,151,133,16,181,186,60,182,112,208,6,161,250,129,130,
   131,126,127,128,150,115,190,86,155,158,149,217,247,2,185,164,
   222,106,50,109,216,138,132,114,42,20,159,136,249,220,137,154,
   251,124,46,195,143,184,101,72,38,200,18,74,206,231,210,98,
   12,224,31,239,17,117,120,113,165,142,118,61,189,188,134,87,
   11,40,47,163,218,212,228,15,169,39,83,4,27,252,172,230,
   122,7,174,99,197,219,226,234,148,139,196,213,157,248,144,107,
   177,13,214,235,198,14,207,173,8,78,215,227,93,80,30,179,
   91,35,56,52,104,70,3,140,221,156,125,160,205,26,65,28]

/-- Multiplicative inverse in GF(2^8), via the precomputed table. -/
def ginv (a : GF) : GF :=
  ⟨ginvTable.getD a.val 0 % 256, Nat.mod_lt _ (by norm_num)⟩

/-! ### Additive group facts (xor) -/

theorem gadd_comm (a b : GF) : gadd a b = gadd b a :=
  GF.ext_val (Nat.xor_comm a.val b.val)

theorem gadd_assoc (a b c : GF) : gadd (gadd a b) c = gadd a (gadd b c) :=
  GF.ext_val (Nat.xor_assoc a.val b.val c.val)

theorem gadd_zero (a : GF) : gadd a gf0 = a := GF.ext_val (Nat.xor_zero a.val)

theorem zero_gadd (a : GF) : gadd gf0 a = a := GF.ext_val (Nat.zero_xor a.val)

theorem gadd_self (a : GF) : gadd a a = gf0 := GF.ext_val (Nat.xor_self a.val)

theorem gadd_gadd_comm (a b c d : GF) :
    gadd (gadd a b) (gadd c d) = gadd (gadd a c) (gadd b d) := by
  apply GF.ext_val
  show (a.val ^^^ b.val) ^^^ (c.val ^^^ d.val) = (a.val ^^^ c.val) ^^^ (b.val ^^^ d.val)
  rw [Nat.xor_assoc, Nat.xor_assoc, ← Nat.xor_assoc b.val, ← Nat.xor_assoc c.val,
      Nat.xor_comm b.val c.val]

/-! ### Multiplication facts -/

theorem shl1_xor (a b : Nat) : (a ^^^ b) <<< 1 = (a <<< 1) ^^^ (b <<< 1) := by
  apply Nat.eq_of_testBit_eq
  intro i
  simp [Nat.testBit_shiftLeft, Nat.testBit_xor, Bool.and_xor_distrib_left]

theorem mod256_eq_and (z : Nat) : z % 256 = z &&& 255 := by
  have h : (256 : Nat) = 2 ^ 8 := by norm_num
  rw [h, ← Nat.and_pow_two_sub_one_eq_mod]

theorem nat_xor_left_comm (a b c : Nat) : a ^^^ (b ^^^ c) = b ^^^ (a ^^^ c) := by
  rw [← Nat.xor_assoc, Nat.xor_comm a b, Nat.xor_assoc]

theorem xtimes_gadd (x y : GF) : xtimes (gadd x y) = gadd (xtimes x) (xtimes y) := by
  apply GF.ext_val
  simp only [xtimes, gadd]
  cases hx : x.val.testBit 7 <;> cases hy : y.val.testBit 7 <;>
    simp [hx, hy, Nat.testBit_xor, shl1_xor, mod256_eq_and,
      ← Nat.and_xor_distrib_right, Nat.xor_assoc, Nat.xor_comm, nat_xor_left_comm]

theorem xtimes_zero : xtimes gf0 = gf0 := by decide

theorem mulAux_acc (k : Nat) : ∀ (a : Nat) (y acc : GF),
    mulAux k a y acc = gadd acc (mulAux k a y gf0) := by
  induction k with
  | zero => intro a y acc; simp [mulAux, gadd_zero]
  | succ k ih =>
    intro a y acc
    simp only [mulAux]
    rw [ih (a >>> 1) (xtimes y) (if a % 2 = 1 then gadd acc y else acc),
        ih (a >>> 1) (xtimes y) (if a % 2 = 1 then gadd gf0 y else gf0)]
    by_cases h : a % 2 = 1 <;> simp [h, zero_gadd, gadd_assoc]

theorem mulAux_gadd (k : Nat) : ∀ (a : Nat) (x y acc₁ acc₂ : GF),
    mulAux k a (gadd x y) (gadd acc₁ acc₂) =
      gadd (mulAux k a x acc₁) (mulAux k a y acc₂) := by
  induction k with
  | zero => intro a x y acc₁ acc₂; simp [mulAux]
  | succ k ih =>
    intro a x y acc₁ acc₂
    simp only [mulAux, xtimes_gadd]
    rw [← ih]
    congr 1
    by_cases h : a % 2 = 1 <;> simp [h, gadd_gadd_comm]

theorem gmul_gadd (a x y : GF) : gmul a (gadd x y) = gadd (gmul a x) (gmul a y) := by
  have h := mulAux_gadd 8 a.val x y gf0 gf0
  rw [gadd_self] at h
  exact h

theorem mulAux_xtimes (k : Nat) : ∀ (a : Nat) (y acc : GF),
    xtimes (mulAux k a y acc) = mulAux k a (xtimes y) (xtimes acc) := by
  induction k with
  | zero => intro a y acc; simp [mulAux]
  | succ k ih =>
    intro a y acc
    simp only [mulAux]
    rw [ih]
    congr 1
    by_cases h : a % 2 = 1 <;> simp [h, xtimes_gadd]

theorem gmul_xtimes (a y : GF) : gmul a (xtimes y) = xtimes (gmul a y) := by
  unfold gmul
  rw [mulAux_xtimes, xtimes_zero]

theorem gmul_zero (a : GF) : gmul a gf0 = gf0 := by
  suffices h : ∀ (k : Nat) (n : Nat) (acc : GF), mulAux k n gf0 acc = acc by
    exact h 8 a.val gf0
  intro k
  induction k with
  | zero => intro n acc; rfl
  | succ k ih =>
    intro n acc
    simp only [mulAux, xtimes_zero, ih]
    by_cases h : n % 2 = 1 <;> simp [h, gadd_zero]

theorem mulAux_swap (k : Nat) : ∀ (c : Nat) (a y acc : GF),
    gmul a (mulAux k c y acc) = mulAux k c (gmul a y) (gmul a acc) := by
  induction k with
  | zero => intro c a y acc; rfl
  | succ k ih =>
    intro c a y acc
    simp only [mulAux]
    rw [ih, gmul_xtimes]
    congr 1
    by_cases h : c % 2 = 1 <;> simp [h, gmul_gadd]

theorem gswap (a b y : GF) : gmul a (gmul b y) = gmul b (gmul a y) := by
  show gmul a (mulAux 8 b.val y gf0) = mulAux 8 b.val (gmul a y) gf0
  rw [mulAux_swap, gmul_zero]

theorem gmul_one : ∀ a : GF, gmul a gf1 = a := by decide

theorem one_gmul : ∀ a : GF, gmul gf1 a = a := by decide

theorem zero_gmul : ∀ a : GF, gmul gf0 a = gf0 := by decide

theorem gmul_comm (a b : GF) : gmul a b = gmul b a := by
  have h := gswap a b gf1
  rwa [gmul_one, gmul_one] at h

theorem gmul_assoc (a b c : GF) : gmul (gmul a b) c = gmul a (gmul b c) := by
  calc gmul (gmul a b) c = gmul c (gmul a b) := gmul_comm _ _
    _ = gmul a (gmul c b) := gswap c a b
    _ = gmul a (gmul b c) := by rw [gmul_comm c b]

theorem gadd_gmul (x y c : GF) : gmul (gadd x y) c = gadd (gmul x c) (gmul y c) := by
  rw [gmul_comm, gmul_gadd, gmul_comm c x, gmul_comm c y]

theorem gmul_ginv : ∀ a : GF, a ≠ gf0 → gmul a (ginv a) = gf1 := by decide

theorem ginv_zero : ginv gf0 = gf0 := by decide

/-! ### Field instance -/

instance : Zero GF := ⟨gf0⟩

instance : One GF := ⟨gf1⟩

instance : Add GF := ⟨gadd⟩

instance : Mul GF := ⟨gmul⟩

instance : Neg GF := ⟨fun a => a⟩

instance : Inv GF := ⟨ginv⟩

instance gfCommRing : CommRing GF where
  add := (· + ·)
  add_assoc := by exact gadd_assoc
  zero := 0
  zero_add := by exact zero_gadd
  add_zero := by exact gadd_zero
  add_comm := by exact gadd_comm
  neg := Neg.neg
  neg_add_cancel := by exact gadd_self
  mul := (· * ·)
  mul_assoc := by exact gmul_assoc
  one := 1
  one_mul := by exact one_gmul
  mul_one := by exact gmul_one
  nsmul := nsmulRec
  zsmul := zsmulRec
  left_distrib := by exact gmul_gadd
  right_distrib := by exact gadd_gmul
  zero_mul := by exact zero_gmul
  mul_zero := by exact gmul_zero
  mul_comm := by exact gmul_comm

instance gfField : Field GF where
  inv := ginv
  exists_pair_ne := ⟨gf0, gf1, by decide⟩
  mul_inv_cancel := by intro a h; exact gmul_ginv a h
  inv_zero := by exact ginv_zero
  nnqsmul := _
  qsmul := _



/-! ### BLAKE2s-256 (RFC 7693), the hash behind the demo adapters -/

def add32 (a b : Nat) : Nat := (a + b) % 4294967296

def rotr32 (x n : Nat) : Nat := ((x >>> n) ||| (x <<< (32 - n))) % 4294967296

def blakeIV : List Nat :=
  [0x6A09E667, 0xBB67AE85, 0x3C6EF372, 0xA54FF53A,
   0x510E527F, 0x9B05688C, 0x1F83D9AB, 0x5BE0CD19]

def blakeSigma : List (List Nat) :=
  [[0, 1, 2, 3, 4, 5, 6, 7, 8, 9, 10, 11, 12, 13, 14, 15],
   [14, 10, 4, 8, 9, 15, 13, 6, 1, 12, 0, 2, 11, 7, 5, 3],
   [11, 8, 12, 0, 5, 2, 15, 13, 10, 14, 3, 6, 7, 1, 9, 4],
   [7, 9, 3, 1, 13, 12, 11, 14, 2, 6, 5, 10, 4, 0, 15, 8],
   [9, 0, 5, 7, 2, 4, 10, 15, 14, 1, 11, 12, 6, 8, 3, 13],
   [2, 12, 6, 10, 0, 11, 8, 3, 4, 13, 7, 5, 15, 14, 1, 9],
   [12, 5, 1, 15, 14, 13, 4, 10, 0, 7, 6, 3, 9, 2, 8, 11],
   [13, 11, 7, 14, 12, 1, 3, 9, 5, 0, 15, 4, 8, 6, 2, 10],
   [6, 15, 14, 9, 11, 3, 0, 8, 12, 2, 13, 7, 1, 4, 10, 5],
   [10, 2, 8, 4, 7, 6, 1, 5, 15, 11, 9, 14, 3, 12, 13, 0]]

/-- The BLAKE2 quarter-round mixing function G. -/
def mixG (v : List Nat) (a b c d x y : Nat) : List Nat :=
  let va := add32 (add32 (v.getD a 0) (v.getD b 0)) x
  let vd := rotr32 ((v.getD d 0) ^^^ va) 16
  let vc := add32 (v.getD c 0) vd
  let vb := rotr32 ((v.getD b 0) ^^^ vc) 12
  let va2 := add32 (add32 va vb) y
  let vd2 := rotr32 (vd ^^^ va2) 8
  let vc2 := add32 vc vd2
  let vb2 := rotr32 (vb ^^^ vc2) 7
  (((v.set a va2).set b vb2).set c vc2).set d vd2

/-- One BLAKE2s round: eight G applications following one sigma row. -/
def blakeRound (m : List Nat) (v : List Nat) (s : List Nat) : List Nat :=
  let v1 := mixG v 0 4 8 12 (m.getD (s.getD 0 0) 0) (m.getD (s.getD 1 0) 0)
  let v2 := mixG v1 1 5 9 13 (m.getD (s.getD 2 0) 0) (m.getD (s.getD 3 0) 0)
  let v3 := mixG v2 2 6 10 14 (m.getD (s.getD 4 0) 0) (m.getD (s.getD 5 0) 0)
  let v4 := mixG v3 3 7 11 15 (m.getD (s.getD 6 0) 0) (m.getD (s.getD 7 0) 0)
  let v5 := mixG v4 0 5 10 15 (m.getD (s.getD 8 0) 0) (m.getD (s.getD 9 0) 0)
  let v6 := mixG v5 1 6 11 12 (m.getD (s.getD 10 0) 0) (m.getD (s.getD 11 0) 0)
  let v7 := mixG v6 2 7 8 13 (m.getD (s.getD 12 0) 0) (m.getD (s.getD 13 0) 0)
  mixG v7 3 4 9 14 (m.getD (s.getD 14 0) 0) (m.getD (s.getD 15 0) 0)

/-- Little-endian 32-bit word number `i` of a byte block. -/
def bytesToWord (bs : List Nat) (i : Nat) : Nat :=
  bs.getD (4 * i) 0 + 256 * bs.getD (4 * i + 1) 0 +
    65536 * bs.getD (4 * i + 2) 0 + 16777216 * bs.getD (4 * i + 3) 0

/-- The BLAKE2s compression function F. -/
def blakeCompress (h : List Nat) (block : List Nat) (t : Nat) (last : Bool) : List Nat :=
  let m := (List.range 16).map (bytesToWord block)
  let v0 := h ++ blakeIV
  let v1 := v0.set 12 ((v0.getD 12 0) ^^^ (t % 4294967296))
  let v2 := v1.set 13 ((v1.getD 13 0) ^^^ ((t >>> 32) % 4294967296))
  let v3 := if last then v2.set 14 ((v2.getD 14 0) ^^^ 4294967295) else v2
  let vf := blakeSigma.foldl (blakeRound m) v3
  (List.range 8).map (fun i => (h.getD i 0) ^^^ (vf.getD i 0) ^^^ (vf.getD (i + 8) 0))

/-- Initial state for unkeyed BLAKE2s with 32-byte digest:
IV with the parameter word 0x01010020 folded into h0. -/
def blakeInit : List Nat := blakeIV.set 0 ((blakeIV.getD 0 0) ^^^ 0x01010020)

/-- Split a message into 64-byte blocks; a message of at most 64 bytes
(including the empty message) is a single block. -/
def toBlocks (msg : List Nat) : List (List Nat) :=
  if h : msg.length ≤ 64 then [msg]
  else msg.take 64 :: toBlocks (msg.drop 64)
termination_by msg.length
decreasing_by simp [List.length_drop]; omega

/-- Feed the blocks through the compression function; the byte counter of a
non-final block is the byte count up to and including it, the final block
uses the total message length and the finalization flag. -/
def processBlocks (h : List Nat) (blocks : List (List Nat)) (prev : Nat) (ll : Nat) :
    List Nat :=
  match blocks with
  | [] => h
  | [b] => blakeCompress h b ll true
  | b :: rest => processBlocks (blakeCompress h b (prev + 64) false) rest (prev + 64) ll

def wordToBytes (w : Nat) : List Nat :=
  [w % 256, (w >>> 8) % 256, (w >>> 16) % 256, (w >>> 24) % 256]

/-- BLAKE2s-256 of a byte string. -/
def blake2s256 (msg : List Nat) : List Nat :=
  (processBlocks blakeInit (toBlocks msg) 0 msg.length).flatMap wordToBytes


/-! ### Length facts about BLAKE2s -/

theorem flatMap_wordToBytes_length (l : List Nat) :
    (l.flatMap wordToBytes).length = 4 * l.length := by
  induction l with
  | nil => rfl
  | cons x xs ih => simp [List.flatMap_cons, ih, wordToBytes]; ring

theorem blakeCompress_length (h block : List Nat) (t : Nat) (last : Bool) :
    (blakeCompress h block t last).length = 8 := by
  simp [blakeCompress]

theorem processBlocks_length (blocks : List (List Nat)) :
    ∀ (h : List Nat) (prev ll : Nat), h.length = 8 →
      (processBlocks h blocks prev ll).length = 8 := by
  induction blocks with
  | nil => intro h prev ll hh; simpa [processBlocks]
  | cons b rest ih =>
    intro h prev ll hh
    cases rest with
    | nil => simp [processBlocks, blakeCompress_length]
    | cons r rs =>
      simp only [processBlocks]
      exact ih _ _ _ (blakeCompress_length _ _ _ _)

theorem blakeInit_length : blakeInit.length = 8 := rfl

theorem blake2s256_length (msg : List Nat) : (blake2s256 msg).length = 32 := by
  have h := processBlocks_length (toBlocks msg) blakeInit 0 msg.length blakeInit_length
  simp only [blake2s256]
  rw [flatMap_wordToBytes_length, h]

/-! ### The deterministic byte expander of the demo adapters -/

/-- Little-endian byte encoding of a 32-bit word. -/
def toLeBytes32 (n : Nat) : List Nat :=
  [n % 256, (n >>> 8) % 256, (n >>> 16) % 256, (n >>> 24) % 256]

/-- Little-endian byte encoding of a 64-bit word. -/
def toLeBytes64 (n : Nat) : List Nat :=
  [n % 256, (n >>> 8) % 256, (n >>> 16) % 256, (n >>> 24) % 256,
   (n >>> 32) % 256, (n >>> 40) % 256, (n >>> 48) % 256, (n >>> 56) % 256]

/-- The `while out.len() < len` loop of `expand_bytes`: hash
domain ‖ len-le32 ‖ input ‖ counter-le32, append up to 32 bytes, bump the
u32 counter (wrapping). -/
def expandLoop (domain input : List Nat) (len : Nat) (counter : Nat)
    (out : List Nat) : List Nat :=
  if h : out.length < len then
    let block := blake2s256 (domain ++ toLeBytes32 len ++ input ++ toLeBytes32 counter)
    expandLoop domain input len ((counter + 1) % 4294967296)
      (out ++ block.take (min (len - out.length) block.length))
  else out
termination_by len - out.length
decreasing_by
  have hb := blake2s256_length (domain ++ toLeBytes32 len ++ input ++ toLeBytes32 counter)
  simp only [List.length_append, List.length_take, hb]
  have h1 := Nat.min_le_left (len - out.length) 32
  have h2 : 1 ≤ min (len - out.length) 32 := by
    rw [Nat.le_min]
    omega
  omega

/-- Function expand_bytes from the demo adapters: deterministic hash-based expansion
of `input` under a domain tag to exactly `len` bytes. -/
def expand_bytes (domain input : List Nat) (len : Nat) : List Nat :=
  if len = 0 then [] else expandLoop domain input len 0 []

theorem expandLoop_length (domain input : List Nat) (len counter : Nat)
    (out : List Nat) (hout : out.length ≤ len) :
    (expandLoop domain input len counter out).length = len := by
  induction counter, out using expandLoop.induct domain input len with
  | case1 counter out h block ih =>
    rw [expandLoop]
    simp only [h, dite_true]
    have hb : block.length = 32 := blake2s256_length _
    apply ih
    simp only [List.length_append, List.length_take, hb]
    have h1 := Nat.min_le_left (len - out.length) 32
    omega
  | case2 counter out h =>
    rw [expandLoop]
    simp only [h, dite_false]
    omega

theorem expand_bytes_length (domain input : List Nat) (len : Nat) :
    (expand_bytes domain input len).length = len := by
  by_cases h : len = 0
  · simp [expand_bytes, h]
  · simp only [expand_bytes, h, if_false]
    exact expandLoop_length domain input len 0 [] (by simp)


/-! ### Shared contract types (error taxonomy, key material) -/

/-- Error taxonomy of the contracts core. -/
inductive PqcError where
  | InvalidInput : String → PqcError
  | VerifyFailed : PqcError
  | InsufficientShares : PqcError
  | DuplicateShareIndex : PqcError
  | ShareMismatch : PqcError
deriving DecidableEq

/-- Security capability tier reported by an engine. -/
inductive SecurityLevel where
  | MlKem128 : SecurityLevel
  | MlDsa128 : SecurityLevel
deriving DecidableEq

structure MlKemKeyPair where
  public_key : List Nat
  secret_key : List Nat
  level : SecurityLevel
deriving DecidableEq

structure MlKemEncapsulation where
  ciphertext : List Nat
  shared_secret : List Nat
deriving DecidableEq

structure MlDsaKeyPair where
  public_key : List Nat
  secret_key : List Nat
  level : SecurityLevel
deriving DecidableEq

/-- Byte values of an ASCII domain-separation tag. -/
def strBytes (s : String) : List Nat := s.data.map Char.toNat

def DOMAIN_MLKEM_SK : List Nat := strBytes "PQCNET_MLKEM_SK_V1"

def DOMAIN_MLKEM_PK : List Nat := strBytes "PQCNET_MLKEM_PK_V1"

def DOMAIN_MLKEM_CT : List Nat := strBytes "PQCNET_MLKEM_CT_V1"

def DOMAIN_MLKEM_SS : List Nat := strBytes "PQCNET_MLKEM_SS_V1"

def DOMAIN_MLDSA_SK : List Nat := strBytes "PQCNET_MLDSA_SK_V1"

def DOMAIN_MLDSA_PK : List Nat := strBytes "PQCNET_MLDSA_PK_V1"

def DOMAIN_MLDSA_SIG : List Nat := strBytes "PQCNET_MLDSA_SIG"

/-! ### Demo ML-KEM adapter

The Rust adapter holds a u64 counter in a mutex; the embedding passes the
counter value explicitly. Operations that take `&self` without touching the
counter are pure functions of their byte inputs; the state-passing `Call`
wrappers mirror the full `&self` method-call shape. -/

/-- A fresh DemoMlKem adapter starts its counter at 1. -/
def DemoMlKem.initCounter : Nat := 1

/-- Method next_seed: read the counter, store its wrapping successor, derive a
32-byte seed from the value read. -/
def DemoMlKem.next_seed (counter : Nat) : List Nat × Nat :=
  (expand_bytes DOMAIN_MLKEM_SK (toLeBytes64 counter) 32,
   (counter + 1) % 18446744073709551616)

/-- Method keygen of DemoMlKem. -/
def DemoMlKem.keygen (counter : Nat) : Except PqcError MlKemKeyPair × Nat :=
  let s := DemoMlKem.next_seed counter
  (Except.ok
    { public_key := expand_bytes DOMAIN_MLKEM_PK s.1 32,
      secret_key := s.1,
      level := SecurityLevel.MlKem128 }, s.2)

/-- Method encapsulate of DemoMlKem (does not read the counter). -/
def DemoMlKem.encapsulate (public_key : List Nat) : Except PqcError MlKemEncapsulation :=
  if public_key = [] then Except.error (PqcError.InvalidInput "ml-kem pk missing")
  else
    let ciphertext := expand_bytes DOMAIN_MLKEM_CT public_key 48
    Except.ok { ciphertext := ciphertext,
                shared_secret := expand_bytes DOMAIN_MLKEM_SS ciphertext 32 }

/-- Method decapsulate of DemoMlKem (does not read the counter; the
secret_key parameter is unused in the source, mirrored here). -/
def DemoMlKem.decapsulate (secret_key ciphertext : List Nat) : Except PqcError (List Nat) :=
  if ciphertext = [] then Except.error (PqcError.InvalidInput "ml-kem ciphertext missing")
  else Except.ok (expand_bytes DOMAIN_MLKEM_SS ciphertext 32)

/-- The encapsulate method as a call on the stateful adapter. -/
def DemoMlKem.encapsulateCall (counter : Nat) (public_key : List Nat) :
    Except PqcError MlKemEncapsulation × Nat :=
  (DemoMlKem.encapsulate public_key, counter)

/-- The decapsulate method as a call on the stateful adapter. -/
def DemoMlKem.decapsulateCall (counter : Nat) (secret_key ciphertext : List Nat) :
    Except PqcError (List Nat) × Nat :=
  (DemoMlKem.decapsulate secret_key ciphertext, counter)

/-! ### Demo ML-DSA adapter -/

/-- A fresh DemoMlDsa adapter starts its counter at 7. -/
def DemoMlDsa.initCounter : Nat := 7

/-- Method next_seed of DemoMlDsa. -/
def DemoMlDsa.next_seed (counter : Nat) : List Nat × Nat :=
  (expand_bytes DOMAIN_MLDSA_SK (toLeBytes64 counter) 32,
   (counter + 1) % 18446744073709551616)

/-- Method keygen of DemoMlDsa. -/
def DemoMlDsa.keygen (counter : Nat) : Except PqcError MlDsaKeyPair × Nat :=
  let s := DemoMlDsa.next_seed counter
  (Except.ok
    { public_key := expand_bytes DOMAIN_MLDSA_PK s.1 32,
      secret_key := s.1,
      level := SecurityLevel.MlDsa128 }, s.2)

/-- Method sign of DemoMlDsa: BLAKE2s digest of the transcript
DOMAIN_MLDSA_SIG followed by the derived public key and the message. -/
def DemoMlDsa.sign (secret_key message : List Nat) : Except PqcError (List Nat) :=
  if secret_key = [] then Except.error (PqcError.InvalidInput "ml-dsa secret missing")
  else
    let public_key := expand_bytes DOMAIN_MLDSA_PK secret_key 32
    let transcript := DOMAIN_MLDSA_SIG ++ public_key ++ message
    Except.ok (blake2s256 transcript)

/-- Method verify of DemoMlDsa: input checks, then digest comparison. -/
def DemoMlDsa.verify (public_key message signature : List Nat) : Except PqcError Unit :=
  if public_key = [] then Except.error (PqcError.InvalidInput "ml-dsa pk missing")
  else if signature.length ≠ 32 then
    Except.error (PqcError.InvalidInput "ml-dsa signature length invalid")
  else
    let transcript := DOMAIN_MLDSA_SIG ++ public_key ++ message
    let expected := blake2s256 transcript
    if expected = signature then Except.ok () else Except.error PqcError.VerifyFailed

/-- The sign method as a call on the stateful adapter. -/
def DemoMlDsa.signCall (counter : Nat) (secret_key message : List Nat) :
    Except PqcError (List Nat) × Nat :=
  (DemoMlDsa.sign secret_key message, counter)

/-- The verify method as a call on the stateful adapter. -/
def DemoMlDsa.verifyCall (counter : Nat) (public_key message signature : List Nat) :
    Except PqcError Unit × Nat :=
  (DemoMlDsa.verify public_key message signature, counter)

/-! ### Counter value sequences across successive next_seed calls -/

/-- Counter value observed by the k-th next_seed call (0-based) on a fresh
DemoMlKem adapter: the state after k calls. -/
def kemCounterSeq : Nat → Nat
  | 0 => DemoMlKem.initCounter
  | k + 1 => (DemoMlKem.next_seed (kemCounterSeq k)).2

/-- Counter value observed by the k-th next_seed call (0-based) on a fresh
DemoMlDsa adapter. -/
def dsaCounterSeq : Nat → Nat
  | 0 => DemoMlDsa.initCounter
  | k + 1 => (DemoMlDsa.next_seed (dsaCounterSeq k)).2

theorem kemCounterSeq_eq (k : Nat) :
    kemCounterSeq k = (1 + k) % 18446744073709551616 := by
  induction k with
  | zero => simp [kemCounterSeq, DemoMlKem.initCounter]
  | succ k ih =>
    simp only [kemCounterSeq, DemoMlKem.next_seed, ih]
    omega

theorem dsaCounterSeq_eq (k : Nat) :
    dsaCounterSeq k = (7 + k) % 18446744073709551616 := by
  induction k with
  | zero => simp [dsaCounterSeq, DemoMlDsa.initCounter]
  | succ k ih =>
    simp only [dsaCounterSeq, DemoMlDsa.next_seed, ih]
    omega

/-! ### Claims about the demo adapters -/

/-- C2 counterexample: the demo decapsulate ignores its secret_key argument,
so an empty secret key with a non-empty ciphertext succeeds instead of
failing with InvalidInput as the claim states. -/
theorem C2_counterexample :
    DemoMlKem.decapsulate [] [1] =
      Except.ok (expand_bytes DOMAIN_MLKEM_SS [1] 32) := rfl

/-- C2 (amended): encapsulate fails with InvalidInput on an empty public key,
and decapsulate fails with InvalidInput on an empty ciphertext, for every
secret key; decapsulate performs no emptiness check on the secret key (its
result does not depend on it). -/
theorem C2_kem_empty_input_checks :
    DemoMlKem.encapsulate [] =
      Except.error (PqcError.InvalidInput "ml-kem pk missing") ∧
    (∀ secret_key : List Nat,
      DemoMlKem.decapsulate secret_key [] =
        Except.error (PqcError.InvalidInput "ml-kem ciphertext missing")) ∧
    (∀ secret_key ciphertext : List Nat,
      DemoMlKem.decapsulate secret_key ciphertext =
        DemoMlKem.decapsulate [] ciphertext) :=
  ⟨rfl, fun _ => rfl, fun _ _ => rfl⟩

/-- On a non-empty key and a 32-byte signature, verify reduces to the digest
comparison. -/
theorem verify_eq_of_valid (pk m sig : List Nat) (hpk : pk ≠ []) (hlen : sig.length = 32) :
    DemoMlDsa.verify pk m sig =
      if blake2s256 (DOMAIN_MLDSA_SIG ++ pk ++ m) = sig then Except.ok ()
      else Except.error PqcError.VerifyFailed := by
  simp only [DemoMlDsa.verify]
  rw [if_neg hpk, if_neg (not_not_intro hlen)]

/-- C4: verify validates inputs first: empty public key gives InvalidInput
(whatever the signature is), a non-32-byte signature gives InvalidInput, and
with a non-empty key and a 32-byte signature the result is Ok or VerifyFailed
and nothing else. -/
theorem C4_verify_input_validation :
    (∀ message signature : List Nat,
      DemoMlDsa.verify [] message signature =
        Except.error (PqcError.InvalidInput "ml-dsa pk missing")) ∧
    (∀ public_key message signature : List Nat,
      public_key ≠ [] → signature.length ≠ 32 →
      DemoMlDsa.verify public_key message signature =
        Except.error (PqcError.InvalidInput "ml-dsa signature length invalid")) ∧
    (∀ public_key message signature : List Nat,
      public_key ≠ [] → signature.length = 32 →
      DemoMlDsa.verify public_key message signature = Except.ok () ∨
      DemoMlDsa.verify public_key message signature =
        Except.error PqcError.VerifyFailed) := by
  refine ⟨fun m sig => rfl, fun pk m sig hpk hlen => ?_, fun pk m sig hpk hlen => ?_⟩
  · simp only [DemoMlDsa.verify]
    rw [if_neg hpk, if_pos hlen]
  · rw [verify_eq_of_valid pk m sig hpk hlen]
    by_cases h : blake2s256 (DOMAIN_MLDSA_SIG ++ pk ++ m) = sig
    · left
      rw [if_pos h]
    · right
      rw [if_neg h]

/-- C4 witness: the three validation behaviours at concrete inputs. -/
theorem C4_witness :
    ([97] : List Nat) ≠ [] ∧ (List.replicate 32 0 : List Nat).length = 32 ∧
    ([] : List Nat).length ≠ 32 ∧
    DemoMlDsa.verify [] [] [] =
      Except.error (PqcError.InvalidInput "ml-dsa pk missing") ∧
    DemoMlDsa.verify [97] [] [] =
      Except.error (PqcError.InvalidInput "ml-dsa signature length invalid") ∧
    (DemoMlDsa.verify [97] [] (List.replicate 32 0) = Except.ok () ∨
     DemoMlDsa.verify [97] [] (List.replicate 32 0) =
       Except.error PqcError.VerifyFailed) :=
  ⟨by decide, by simp, by simp,
   C4_verify_input_validation.1 [] [],
   C4_verify_input_validation.2.1 [97] [] [] (by decide) (by simp),
   C4_verify_input_validation.2.2 [97] [] (List.replicate 32 0) (by decide) (by simp)⟩

/-- C5: with a non-empty key and 32-byte signature, verify returns Ok exactly
when the signature equals the transcript digest and VerifyFailed exactly when
it does not; and verify accepts the output of sign under the public key
derived from the signing secret key. -/
theorem C5_verify_digest_semantics :
    (∀ public_key message signature : List Nat,
      public_key ≠ [] → signature.length = 32 →
      ((DemoMlDsa.verify public_key message signature = Except.ok () ↔
          blake2s256 (DOMAIN_MLDSA_SIG ++ public_key ++ message) = signature) ∧
       (DemoMlDsa.verify public_key message signature =
           Except.error PqcError.VerifyFailed ↔
          blake2s256 (DOMAIN_MLDSA_SIG ++ public_key ++ message) ≠ signature))) ∧
    (∀ secret_key message signature : List Nat,
      secret_key ≠ [] →
      DemoMlDsa.sign secret_key message = Except.ok signature →
      DemoMlDsa.verify (expand_bytes DOMAIN_MLDSA_PK secret_key 32) message signature =
        Except.ok ()) := by
  constructor
  · intro pk m sig hpk hlen
    rw [verify_eq_of_valid pk m sig hpk hlen]
    by_cases h : blake2s256 (DOMAIN_MLDSA_SIG ++ pk ++ m) = sig
    · rw [if_pos h]
      exact ⟨iff_of_true rfl h, iff_of_false (by simp) (not_not_intro h)⟩
    · rw [if_neg h]
      exact ⟨iff_of_false (by simp) h, iff_of_true rfl h⟩
  · intro sk m sig hsk hsign
    have hpk : expand_bytes DOMAIN_MLDSA_PK sk 32 ≠ [] := by
      intro h
      have hl := expand_bytes_length DOMAIN_MLDSA_PK sk 32
      rw [h] at hl
      simp at hl
    have hsig : blake2s256
        (DOMAIN_MLDSA_SIG ++ expand_bytes DOMAIN_MLDSA_PK sk 32 ++ m) = sig := by
      have h2 : DemoMlDsa.sign sk m = Except.ok
          (blake2s256 (DOMAIN_MLDSA_SIG ++ expand_bytes DOMAIN_MLDSA_PK sk 32 ++ m)) := by
        simp only [DemoMlDsa.sign]
        rw [if_neg hsk]
      rw [h2] at hsign
      injection hsign
    rw [verify_eq_of_valid _ m sig hpk (by rw [← hsig]; exact blake2s256_length _),
      if_pos hsig]

/-- C5 witness: sign-then-verify succeeds at a concrete key and message, and
the Ok-iff-digest-match equivalence instantiated concretely. -/
theorem C5_witness :
    ([1] : List Nat) ≠ [] ∧ ([2] : List Nat) ≠ [] ∧
    (List.replicate 32 0 : List Nat).length = 32 ∧
    DemoMlDsa.sign [1] [] = Except.ok
      (blake2s256 (DOMAIN_MLDSA_SIG ++ expand_bytes DOMAIN_MLDSA_PK [1] 32 ++ [])) ∧
    (DemoMlDsa.verify [2] [] (List.replicate 32 0) = Except.ok () ↔
      blake2s256 (DOMAIN_MLDSA_SIG ++ [2] ++ []) = List.replicate 32 0) ∧
    DemoMlDsa.verify (expand_bytes DOMAIN_MLDSA_PK [1] 32) []
      (blake2s256 (DOMAIN_MLDSA_SIG ++ expand_bytes DOMAIN_MLDSA_PK [1] 32 ++ [])) =
        Except.ok () :=
  ⟨by decide, by decide, by simp,
   rfl,
   (C5_verify_digest_semantics.1 [2] [] (List.replicate 32 0) (by decide) (by simp)).1,
   C5_verify_digest_semantics.2 [1] [] _ (by decide) rfl⟩

/-- C6: for every non-empty public key, decapsulating the ciphertext produced
by encapsulate returns the same shared secret, for every secret key. -/
theorem C6_encapsulate_decapsulate_roundtrip :
    ∀ (public_key secret_key : List Nat) (e : MlKemEncapsulation),
      public_key ≠ [] →
      DemoMlKem.encapsulate public_key = Except.ok e →
      DemoMlKem.decapsulate secret_key e.ciphertext = Except.ok e.shared_secret := by
  intro pk sk e hpk henc
  have h2 : DemoMlKem.encapsulate pk = Except.ok
      { ciphertext := expand_bytes DOMAIN_MLKEM_CT pk 48,
        shared_secret :=
          expand_bytes DOMAIN_MLKEM_SS (expand_bytes DOMAIN_MLKEM_CT pk 48) 32 } := by
    simp only [DemoMlKem.encapsulate]
    rw [if_neg hpk]
  rw [h2] at henc
  have he := Except.ok.inj henc
  have hctne : expand_bytes DOMAIN_MLKEM_CT pk 48 ≠ [] := by
    intro h
    have hl := expand_bytes_length DOMAIN_MLKEM_CT pk 48
    rw [h] at hl
    simp at hl
  rw [← he]
  show DemoMlKem.decapsulate sk (expand_bytes DOMAIN_MLKEM_CT pk 48) = Except.ok
    (expand_bytes DOMAIN_MLKEM_SS (expand_bytes DOMAIN_MLKEM_CT pk 48) 32)
  simp only [DemoMlKem.decapsulate]
  rw [if_neg hctne]

/-- C6 witness: the round trip at a concrete public key (with an empty
secret key on the decapsulation side). -/
theorem C6_witness :
    ([1] : List Nat) ≠ [] ∧
    DemoMlKem.encapsulate [1] = Except.ok
      { ciphertext := expand_bytes DOMAIN_MLKEM_CT [1] 48,
        shared_secret :=
          expand_bytes DOMAIN_MLKEM_SS (expand_bytes DOMAIN_MLKEM_CT [1] 48) 32 } ∧
    DemoMlKem.decapsulate [] (expand_bytes DOMAIN_MLKEM_CT [1] 48) =
      Except.ok
        (expand_bytes DOMAIN_MLKEM_SS (expand_bytes DOMAIN_MLKEM_CT [1] 48) 32) :=
  ⟨by decide, rfl,
   C6_encapsulate_decapsulate_roundtrip [1] [] _ (by decide) rfl⟩

/-- C7 counterexample: the u64 counter advances by wrapping addition, so the
value observed by call number 2^64 equals the value observed by call 0 — in a
long enough call sequence a counter value is reused, contradicting the claim
as stated. -/
theorem C7_counterexample :
    kemCounterSeq 0 = kemCounterSeq 18446744073709551616 ∧
    (0 : Nat) ≠ 18446744073709551616 := by
  constructor
  · rw [kemCounterSeq_eq, kemCounterSeq_eq]
  · omega

/-- C7 (amended): any two distinct next_seed calls fewer than 2^64 apart
observe distinct counter values, on both demo adapters, so key material
derivation inputs are distinct within any 2^64-call window. -/
theorem C7_counter_no_reuse_within_period :
    ∀ i j : Nat, i < j → j - i < 18446744073709551616 →
      kemCounterSeq i ≠ kemCounterSeq j ∧ dsaCounterSeq i ≠ dsaCounterSeq j := by
  intro i j hij hlt
  rw [kemCounterSeq_eq, kemCounterSeq_eq, dsaCounterSeq_eq, dsaCounterSeq_eq]
  omega

/-- C7 witness: calls 0 and 1 observe distinct counter values. -/
theorem C7_witness :
    (0 : Nat) < 1 ∧ (1 : Nat) - 0 < 18446744073709551616 ∧
    kemCounterSeq 0 ≠ kemCounterSeq 1 ∧ dsaCounterSeq 0 ≠ dsaCounterSeq 1 :=
  ⟨by decide, by norm_num,
   (C7_counter_no_reuse_within_period 0 1 (by decide) (by norm_num)).1,
   (C7_counter_no_reuse_within_period 0 1 (by decide) (by norm_num)).2⟩

/-- C8: the stateless operations of the demo adapters are deterministic
functions of their byte inputs: calls at any two adapter states return equal
results, and none of them changes the counter. -/
theorem C8_stateless_ops_deterministic :
    ∀ (c₁ c₂ : Nat) (pk m sig sk ct : List Nat),
      (DemoMlKem.encapsulateCall c₁ pk).1 = (DemoMlKem.encapsulateCall c₂ pk).1 ∧
      (DemoMlKem.decapsulateCall c₁ sk ct).1 = (DemoMlKem.decapsulateCall c₂ sk ct).1 ∧
      (DemoMlDsa.signCall c₁ sk m).1 = (DemoMlDsa.signCall c₂ sk m).1 ∧
      (DemoMlDsa.verifyCall c₁ pk m sig).1 = (DemoMlDsa.verifyCall c₂ pk m sig).1 ∧
      (DemoMlKem.encapsulateCall c₁ pk).2 = c₁ ∧
      (DemoMlKem.decapsulateCall c₁ sk ct).2 = c₁ ∧
      (DemoMlDsa.signCall c₁ sk m).2 = c₁ ∧
      (DemoMlDsa.verifyCall c₁ pk m sig).2 = c₁ :=
  fun _ _ _ _ _ _ _ => ⟨rfl, rfl, rfl, rfl, rfl, rfl, rfl, rfl⟩

/-- C9: decapsulate does not depend on its secret_key argument. -/
theorem C9_decapsulate_ignores_secret_key :
    ∀ (sk₁ sk₂ ciphertext : List Nat),
      DemoMlKem.decapsulate sk₁ ciphertext = DemoMlKem.decapsulate sk₂ ciphertext :=
  fun _ _ _ => rfl

/-- C10: expand_bytes returns exactly the requested number of bytes (empty at
length 0); consequently both keygens return Ok with 32-byte keys, encapsulate
returns a 48-byte ciphertext with a 32-byte shared secret, and sign returns a
32-byte signature — the length verify accepts. -/
theorem C10_output_lengths :
    (∀ (domain input : List Nat) (len : Nat),
      (expand_bytes domain input len).length = len) ∧
    (∀ domain input : List Nat, expand_bytes domain input 0 = []) ∧
    (∀ counter : Nat, ∃ kp : MlKemKeyPair,
      (DemoMlKem.keygen counter).1 = Except.ok kp ∧
      kp.secret_key.length = 32 ∧ kp.public_key.length = 32) ∧
    (∀ counter : Nat, ∃ kp : MlDsaKeyPair,
      (DemoMlDsa.keygen counter).1 = Except.ok kp ∧
      kp.secret_key.length = 32 ∧ kp.public_key.length = 32) ∧
    (∀ public_key : List Nat, public_key ≠ [] → ∃ e : MlKemEncapsulation,
      DemoMlKem.encapsulate public_key = Except.ok e ∧
      e.ciphertext.length = 48 ∧ e.shared_secret.length = 32) ∧
    (∀ secret_key message : List Nat, secret_key ≠ [] → ∃ signature : List Nat,
      DemoMlDsa.sign secret_key message = Except.ok signature ∧
      signature.length = 32) := by
  refine ⟨expand_bytes_length, fun d i => by simp [expand_bytes],
    fun c => ?_, fun c => ?_, fun pk hpk => ?_, fun sk m hsk => ?_⟩
  · refine ⟨{ public_key := expand_bytes DOMAIN_MLKEM_PK (DemoMlKem.next_seed c).1 32,
              secret_key := (DemoMlKem.next_seed c).1,
              level := SecurityLevel.MlKem128 }, rfl, ?_, ?_⟩
    · show ((DemoMlKem.next_seed c).1).length = 32
      simp [DemoMlKem.next_seed, expand_bytes_length]
    · show (expand_bytes DOMAIN_MLKEM_PK (DemoMlKem.next_seed c).1 32).length = 32
      exact expand_bytes_length _ _ _
  · refine ⟨{ public_key := expand_bytes DOMAIN_MLDSA_PK (DemoMlDsa.next_seed c).1 32,
              secret_key := (DemoMlDsa.next_seed c).1,
              level := SecurityLevel.MlDsa128 }, rfl, ?_, ?_⟩
    · show ((DemoMlDsa.next_seed c).1).length = 32
      simp [DemoMlDsa.next_seed, expand_bytes_length]
    · show (expand_bytes DOMAIN_MLDSA_PK (DemoMlDsa.next_seed c).1 32).length = 32
      exact expand_bytes_length _ _ _
  · refine ⟨{ ciphertext := expand_bytes DOMAIN_MLKEM_CT pk 48,
              shared_secret :=
                expand_bytes DOMAIN_MLKEM_SS (expand_bytes DOMAIN_MLKEM_CT pk 48) 32 },
      ?_, ?_, ?_⟩
    · simp [DemoMlKem.encapsulate, hpk]
    · show (expand_bytes DOMAIN_MLKEM_CT pk 48).length = 48
      exact expand_bytes_length _ _ _
    · show (expand_bytes DOMAIN_MLKEM_SS (expand_bytes DOMAIN_MLKEM_CT pk 48) 32).length = 32
      exact expand_bytes_length _ _ _
  · refine ⟨blake2s256 (DOMAIN_MLDSA_SIG ++ expand_bytes DOMAIN_MLDSA_PK sk 32 ++ m),
      ?_, ?_⟩
    · simp only [DemoMlDsa.sign]
      rw [if_neg hsk]
    · show (blake2s256 (DOMAIN_MLDSA_SIG ++ expand_bytes DOMAIN_MLDSA_PK sk 32 ++ m)).length = 32
      exact blake2s256_length _

/-- C10 witness: the length guarantees at concrete inputs. -/
theorem C10_witness :
    ([1] : List Nat) ≠ [] ∧
    (expand_bytes [5] [6] 7).length = 7 ∧
    (∃ kp : MlKemKeyPair, (DemoMlKem.keygen 1).1 = Except.ok kp ∧
      kp.secret_key.length = 32 ∧ kp.public_key.length = 32) ∧
    (∃ e : MlKemEncapsulation, DemoMlKem.encapsulate [1] = Except.ok e ∧
      e.ciphertext.length = 48 ∧ e.shared_secret.length = 32) ∧
    (∃ signature : List Nat, DemoMlDsa.sign [1] [] = Except.ok signature ∧
      signature.length = 32) :=
  ⟨by decide,
   C10_output_lengths.1 [5] [6] 7,
   C10_output_lengths.2.2.1 1,
   C10_output_lengths.2.2.2.2.1 [1] (by decide),
   C10_output_lengths.2.2.2.2.2 [1] [] (by decide)⟩

/-! ### Threshold secret sharing, modelled from the spec

The sharing engine itself is not under src/ (only its caller, the demo
example, is); the definitions below are modelled from the spec wording in
sections 3 and 4.1: byte-wise Shamir sharing over a finite field of size 256,
share index `i` in `1..=n` as evaluation point, Lagrange interpolation at
`x = 0` to combine, with combine-time validation in the order given by the
spec (non-empty, matching metadata, no duplicate index, equal value lengths;
the spec notes the engine cannot check the threshold from shares alone). -/

structure ThresholdPolicy where
  t : Nat
  n : Nat
deriving DecidableEq

structure ShareMetadata where
  key_id : List Nat
  key_version : Nat
  created_at : Nat
  share_index : Nat
deriving DecidableEq

structure Share where
  metadata : ShareMetadata
  value : List GF
deriving DecidableEq

structure SecretSharePackage where
  key_id : List Nat
  key_version : Nat
  created_at : Nat
  threshold : ThresholdPolicy
  shares : List Share
deriving DecidableEq

structure RecoveredSecret where
  secret : List GF
deriving DecidableEq

/-- The field element whose byte representation is the byte `i % 256`. -/
def natToGF (i : Nat) : GF := ⟨i % 256, Nat.mod_lt _ (by norm_num)⟩

/-- Modelled from the spec: evaluation of the degree-(t-1) sharing polynomial
with constant term `s` (the secret byte) and higher random coefficients
`c 0, …, c (t-2)` at the point `x`. -/
def polyEvalAt (s : GF) (c : Nat → GF) (t : Nat) (x : GF) : GF :=
  s + ∑ k ∈ Finset.range (t - 1), c k * x ^ (k + 1)

/-- Modelled from the spec: the share with index `j + 1` of a package, each
value byte being the evaluation of the per-byte sharing polynomial at the
share index. -/
def splitShare (secret : List GF) (key_id : List Nat)
    (key_version created_at : Nat) (policy : ThresholdPolicy)
    (coeffs : Nat → Nat → GF) (j : Nat) : Share :=
  { metadata := { key_id := key_id, key_version := key_version,
                  created_at := created_at, share_index := j + 1 },
    value := (List.range secret.length).map (fun b =>
      polyEvalAt (secret.getD b gf0) (coeffs b) policy.t (natToGF (j + 1))) }

/-- Modelled from the spec: split_secret. The random coefficients drawn
locally by the call are modelled as the explicit argument `coeffs`
(byte position → coefficient index → field element). -/
def split_secret (secret : List GF) (key_id : List Nat)
    (key_version created_at : Nat) (policy : ThresholdPolicy)
    (coeffs : Nat → Nat → GF) : Except PqcError SecretSharePackage :=
  if secret = [] then Except.error (PqcError.InvalidInput "secret empty")
  else if ¬ (1 ≤ policy.t ∧ policy.t ≤ policy.n ∧ policy.n ≤ 255) then
    Except.error (PqcError.InvalidInput "invalid threshold policy")
  else Except.ok
    { key_id := key_id, key_version := key_version, created_at := created_at,
      threshold := policy,
      shares := (List.range policy.n).map
        (splitShare secret key_id key_version created_at policy coeffs) }

/-- Modelled from the spec: Lagrange interpolation at `x = 0` of the points
`(x i, y i)`, `i : Fin m`. -/
def lagrangeAtZero (m : Nat) (x y : Fin m → GF) : GF :=
  ∑ i : Fin m, y i * ∏ j ∈ Finset.univ.erase i, x j * (x j - x i)⁻¹

/-- Evaluation point of a share. -/
def shareX (s : Share) : GF := natToGF s.metadata.share_index

/-- Byte `b` of the value of a share, as a field element. -/
def shareByte (s : Share) (b : Nat) : GF := s.value.getD b gf0

/-- Modelled from the spec: combine_secret, validations in spec order. -/
def combine_secret (shares : List Share) : Except PqcError RecoveredSecret :=
  match shares with
  | [] => Except.error PqcError.InsufficientShares
  | s0 :: rest =>
    if ¬ (∀ s ∈ rest, s.metadata.key_id = s0.metadata.key_id ∧
          s.metadata.key_version = s0.metadata.key_version ∧
          s.metadata.created_at = s0.metadata.created_at) then
      Except.error PqcError.ShareMismatch
    else if ¬ ((s0 :: rest).map (fun s => s.metadata.share_index)).Nodup then
      Except.error PqcError.DuplicateShareIndex
    else if ¬ (∀ s ∈ rest, s.value.length = s0.value.length) then
      Except.error (PqcError.InvalidInput "share value length mismatch")
    else Except.ok
      { secret := (List.range s0.value.length).map (fun b =>
          lagrangeAtZero (s0 :: rest).length
            (fun i => shareX ((s0 :: rest).get i))
            (fun i => shareByte ((s0 :: rest).get i) b)) }

/-! ### Correctness of Lagrange interpolation at zero over GF -/

theorem field_lagrange_eval_zero {F : Type} [Field F] [DecidableEq F] {m : ℕ}
    (v : Fin m → F) (hv : Function.Injective v) (f : Polynomial F)
    (hdeg : f.degree < (m : ℕ)) :
    Polynomial.eval 0 f =
      ∑ i : Fin m, Polynomial.eval (v i) f *
        ∏ j ∈ Finset.univ.erase i, v j * (v j - v i)⁻¹ := by
  have hinj : Set.InjOn v (Finset.univ : Finset (Fin m)) := fun a _ b _ h => hv h
  have hdeg2 : f.degree < (Finset.univ : Finset (Fin m)).card := by
    rwa [Finset.card_univ, Fintype.card_fin]
  have h := Lagrange.eq_interpolate hinj hdeg2
  conv_lhs => rw [h]
  rw [Lagrange.interpolate_apply, Polynomial.eval_finset_sum]
  apply Finset.sum_congr rfl
  intro i _
  rw [Polynomial.eval_mul, Polynomial.eval_C, Lagrange.basis, Polynomial.eval_prod]
  congr 1
  apply Finset.prod_congr rfl
  intro j hj
  rw [Lagrange.basisDivisor]
  simp only [Polynomial.eval_mul, Polynomial.eval_sub, Polynomial.eval_C,
    Polynomial.eval_X]
  rw [zero_sub, ← neg_sub (v j) (v i), inv_neg]
  ring

/-- The sharing polynomial of one byte, as a Mathlib polynomial (proof-side
counterpart of polyEvalAt). -/
noncomputable def sharePoly (s : GF) (c : Nat → GF) (t : Nat) : Polynomial GF :=
  Polynomial.C s + ∑ k ∈ Finset.range (t - 1), Polynomial.C (c k) * Polynomial.X ^ (k + 1)

theorem sharePoly_eval (s : GF) (c : Nat → GF) (t : Nat) (x : GF) :
    (sharePoly s c t).eval x = polyEvalAt s c t x := by
  simp [sharePoly, polyEvalAt, Polynomial.eval_finset_sum]

theorem sharePoly_eval_zero (s : GF) (c : Nat → GF) (t : Nat) :
    (sharePoly s c t).eval 0 = s := by
  simp [sharePoly, Polynomial.eval_finset_sum]

theorem sharePoly_degree_lt (s : GF) (c : Nat → GF) (t : Nat) (ht : 1 ≤ t) :
    (sharePoly s c t).degree < (t : ℕ) := by
  apply lt_of_le_of_lt (Polynomial.degree_add_le _ _)
  rw [max_lt_iff]
  have ht0 : (0 : WithBot ℕ) < (t : ℕ) := by exact_mod_cast (by omega : 0 < t)
  constructor
  · exact lt_of_le_of_lt Polynomial.degree_C_le ht0
  · apply lt_of_le_of_lt (Polynomial.degree_sum_le _ _)
    rw [Finset.sup_lt_iff (lt_of_le_of_lt bot_le ht0)]
    intro k hk
    have hk2 := Finset.mem_range.mp hk
    exact lt_of_le_of_lt (Polynomial.degree_C_mul_X_pow_le _ _)
      (by exact_mod_cast (by omega : k + 1 < t))

theorem natToGF_inj {i j : Nat} (hi : i < 256) (hj : j < 256)
    (h : natToGF i = natToGF j) : i = j := by
  have hv := congrArg GF.val h
  simp only [natToGF] at hv
  rwa [Nat.mod_eq_of_lt hi, Nat.mod_eq_of_lt hj] at hv

theorem splitShare_value_length (secret : List GF) (key_id : List Nat)
    (key_version created_at : Nat) (policy : ThresholdPolicy)
    (coeffs : Nat → Nat → GF) (j : Nat) :
    (splitShare secret key_id key_version created_at policy coeffs j).value.length =
      secret.length := by
  simp [splitShare]

theorem splitShare_byte (secret : List GF) (key_id : List Nat)
    (key_version created_at : Nat) (policy : ThresholdPolicy)
    (coeffs : Nat → Nat → GF) (j b : Nat) (hb : b < secret.length) :
    shareByte (splitShare secret key_id key_version created_at policy coeffs j) b =
      polyEvalAt (secret.getD b gf0) (coeffs b) policy.t (natToGF (j + 1)) := by
  simp only [shareByte, splitShare]
  rw [List.getD_eq_getElem _ _ (by simpa using hb)]
  simp

/-- Inversion of a successful split: the secret was non-empty, the policy was
valid, and the package shares are exactly the constructed ones. -/
theorem split_secret_ok (secret : List GF) (key_id : List Nat)
    (key_version created_at : Nat) (policy : ThresholdPolicy)
    (coeffs : Nat → Nat → GF) (pkg : SecretSharePackage)
    (hpkg : split_secret secret key_id key_version created_at policy coeffs =
      Except.ok pkg) :
    secret ≠ [] ∧ (1 ≤ policy.t ∧ policy.t ≤ policy.n ∧ policy.n ≤ 255) ∧
    pkg.shares = (List.range policy.n).map
      (splitShare secret key_id key_version created_at policy coeffs) := by
  have hS : secret ≠ [] := by
    intro h
    rw [h] at hpkg
    simp [split_secret] at hpkg
  rw [split_secret, if_neg hS] at hpkg
  by_cases hpol : 1 ≤ policy.t ∧ policy.t ≤ policy.n ∧ policy.n ≤ 255
  · rw [if_neg (not_not_intro hpol)] at hpkg
    have h := Except.ok.inj hpkg
    exact ⟨hS, hpol, by rw [← h]⟩
  · rw [if_pos hpol] at hpkg
    exact absurd hpkg (by simp)

/-- C1: round-trip correctness of threshold secret sharing. Combining any
t-element subset of the shares of a package produced by split_secret on a
non-empty secret under a valid policy recovers the secret byte for byte,
whatever random coefficients the split drew. -/
theorem C1_split_combine_roundtrip
    (S : List GF) (kid : List Nat) (ver ts : Nat) (pol : ThresholdPolicy)
    (coeffs : Nat → Nat → GF) (pkg : SecretSharePackage) (qs : List Share)
    (hpkg : split_secret S kid ver ts pol coeffs = Except.ok pkg)
    (hqlen : qs.length = pol.t) (hnd : qs.Nodup)
    (hsub : ∀ s ∈ qs, s ∈ pkg.shares) :
    combine_secret qs = Except.ok { secret := S } := by
  obtain ⟨hS, ⟨ht1, htn, hn255⟩, hshares⟩ :=
    split_secret_ok S kid ver ts pol coeffs pkg hpkg
  have hmem : ∀ q ∈ pkg.shares, ∃ j, j < pol.n ∧
      q = splitShare S kid ver ts pol coeffs j := by
    intro q hq
    rw [hshares] at hq
    obtain ⟨j, hj, hq2⟩ := List.mem_map.mp hq
    exact ⟨j, List.mem_range.mp hj, hq2.symm⟩
  have hshare_inj : ∀ q1 ∈ pkg.shares, ∀ q2 ∈ pkg.shares,
      q1.metadata.share_index = q2.metadata.share_index → q1 = q2 := by
    intro q1 hq1 q2 hq2 hidx
    obtain ⟨j1, hj1, he1⟩ := hmem q1 hq1
    obtain ⟨j2, hj2, he2⟩ := hmem q2 hq2
    rw [he1, he2] at hidx
    have hidx2 : j1 + 1 = j2 + 1 := hidx
    have hj12 : j1 = j2 := by omega
    rw [he1, he2, hj12]
  cases qs with
  | nil =>
    exfalso
    simp at hqlen
    omega
  | cons q0 rest =>
    have hq0mem := hsub q0 (List.mem_cons_self q0 rest)
    obtain ⟨j0, hj0, he0⟩ := hmem q0 hq0mem
    have hV1 : ∀ s ∈ rest, s.metadata.key_id = q0.metadata.key_id ∧
        s.metadata.key_version = q0.metadata.key_version ∧
        s.metadata.created_at = q0.metadata.created_at := by
      intro s hs
      obtain ⟨js, hjs, hes⟩ := hmem s (hsub s (List.mem_cons_of_mem q0 hs))
      rw [hes, he0]
      exact ⟨rfl, rfl, rfl⟩
    have hV2 : ((q0 :: rest).map (fun s => s.metadata.share_index)).Nodup := by
      apply List.Nodup.map_on _ hnd
      intro x hx y hy hxy
      exact hshare_inj x (hsub x hx) y (hsub y hy) hxy
    have hvlen : ∀ s ∈ q0 :: rest, s.value.length = S.length := by
      intro s hs
      obtain ⟨js, hjs, hes⟩ := hmem s (hsub s hs)
      rw [hes]
      exact splitShare_value_length S kid ver ts pol coeffs js
    have hV3 : ∀ s ∈ rest, s.value.length = q0.value.length := by
      intro s hs
      rw [hvlen s (List.mem_cons_of_mem q0 hs), hvlen q0 (List.mem_cons_self q0 rest)]
    simp only [combine_secret]
    rw [if_neg (not_not_intro hV1), if_neg (not_not_intro hV2),
      if_neg (not_not_intro hV3)]
    simp only [Except.ok.injEq, RecoveredSecret.mk.injEq]
    have hq0len : q0.value.length = S.length := hvlen q0 (List.mem_cons_self q0 rest)
    rw [hq0len]
    apply List.ext_getElem
    · simp
    · intro b hb1 hb2
      simp only [List.getElem_map, List.getElem_range]
      have hbS : b < S.length := hb2
      set m := (q0 :: rest).length with hm
      set v : Fin m → GF := fun i => shareX ((q0 :: rest).get i) with hv
      set y : Fin m → GF := fun i => shareByte ((q0 :: rest).get i) b with hy
      have hjfact : ∀ i : Fin m, ∃ j, j < pol.n ∧
          (q0 :: rest).get i = splitShare S kid ver ts pol coeffs j := by
        intro i
        exact hmem _ (hsub _ (List.get_mem (q0 :: rest) i.1 i.2))
      have hvinj : Function.Injective v := by
        intro i1 i2 h12
        obtain ⟨j1, hj1, hg1⟩ := hjfact i1
        obtain ⟨j2, hj2, hg2⟩ := hjfact i2
        simp only [hv] at h12
        rw [hg1, hg2] at h12
        have h12n : natToGF (j1 + 1) = natToGF (j2 + 1) := h12
        have hj12 : j1 = j2 := by
          have := natToGF_inj (by omega) (by omega) h12n
          omega
        apply (hnd.get_inj_iff).mp
        rw [hg1, hg2, hj12]
      have hdeg : (sharePoly (S.getD b gf0) (coeffs b) pol.t).degree < (m : ℕ) := by
        rw [hqlen]
        exact sharePoly_degree_lt _ _ _ ht1
      have hbridge := field_lagrange_eval_zero v hvinj
        (sharePoly (S.getD b gf0) (coeffs b) pol.t) hdeg
      have hymatch : ∀ i : Fin m, y i =
          Polynomial.eval (v i) (sharePoly (S.getD b gf0) (coeffs b) pol.t) := by
        intro i
        obtain ⟨j, hj, hg⟩ := hjfact i
        simp only [hy, hv]
        rw [hg, splitShare_byte S kid ver ts pol coeffs j b hbS]
        have hevalx : Polynomial.eval (shareX (splitShare S kid ver ts pol coeffs j))
            (sharePoly (S.getD b gf0) (coeffs b) pol.t) =
            polyEvalAt (S.getD b gf0) (coeffs b) pol.t (natToGF (j + 1)) := by
          rw [sharePoly_eval]
          rfl
        rw [hevalx]
      have hsum : lagrangeAtZero m v y =
          (sharePoly (S.getD b gf0) (coeffs b) pol.t).eval 0 := by
        rw [hbridge]
        simp only [lagrangeAtZero]
        apply Finset.sum_congr rfl
        intro i _
        rw [hymatch i]
      rw [hsum, sharePoly_eval_zero]
      exact List.getD_eq_getElem S gf0 hbS

instance {e a : Type} [DecidableEq e] [DecidableEq a] : DecidableEq (Except e a)
  | Except.ok x, Except.ok y => decidable_of_iff (x = y) (by simp)
  | Except.ok _, Except.error _ => isFalse (by simp)
  | Except.error _, Except.ok _ => isFalse (by simp)
  | Except.error x, Except.error y => decidable_of_iff (x = y) (by simp)

/-- C1 witness: a 2-of-3 split of the one-byte secret 0x05 with constant
coefficient 1: shares evaluate to 4, 7, 6 at the points 1, 2, 3, and the
quorum of shares 1 and 3 recombines to the secret. -/
theorem C1_witness :
    split_secret [(⟨5, by norm_num⟩ : GF)] [] 0 0 ⟨2, 3⟩ (fun _ _ => gf1) =
      Except.ok
        { key_id := [], key_version := 0, created_at := 0, threshold := ⟨2, 3⟩,
          shares :=
            [{ metadata := ⟨[], 0, 0, 1⟩, value := [⟨4, by norm_num⟩] },
             { metadata := ⟨[], 0, 0, 2⟩, value := [⟨7, by norm_num⟩] },
             { metadata := ⟨[], 0, 0, 3⟩, value := [⟨6, by norm_num⟩] }] } ∧
    ([{ metadata := ⟨[], 0, 0, 1⟩, value := [(⟨4, by norm_num⟩ : GF)] },
      { metadata := ⟨[], 0, 0, 3⟩, value := [⟨6, by norm_num⟩] }] : List Share).length = (⟨2, 3⟩ : ThresholdPolicy).t ∧
    ([{ metadata := ⟨[], 0, 0, 1⟩, value := [(⟨4, by norm_num⟩ : GF)] },
      { metadata := ⟨[], 0, 0, 3⟩, value := [⟨6, by norm_num⟩] }] : List Share).Nodup ∧
    combine_secret
      [{ metadata := ⟨[], 0, 0, 1⟩, value := [⟨4, by norm_num⟩] },
       { metadata := ⟨[], 0, 0, 3⟩, value := [⟨6, by norm_num⟩] }] =
      Except.ok { secret := [⟨5, by norm_num⟩] } :=
  ⟨by decide, by decide, by decide,
   C1_split_combine_roundtrip [⟨5, by norm_num⟩] [] 0 0 ⟨2, 3⟩ (fun _ _ => gf1)
     { key_id := [], key_version := 0, created_at := 0, threshold := ⟨2, 3⟩,
       shares :=
         [{ metadata := ⟨[], 0, 0, 1⟩, value := [⟨4, by norm_num⟩] },
          { metadata := ⟨[], 0, 0, 2⟩, value := [⟨7, by norm_num⟩] },
          { metadata := ⟨[], 0, 0, 3⟩, value := [⟨6, by norm_num⟩] }] }
     [{ metadata := ⟨[], 0, 0, 1⟩, value := [⟨4, by norm_num⟩] },
      { metadata := ⟨[], 0, 0, 3⟩, value := [⟨6, by norm_num⟩] }]
     (by decide) (by decide) (by decide) (by decide)⟩

/-! ### Key state and rotation manager, modelled from the spec

The manager is not under src/ (only its caller, the demo example, is); these
definitions follow the spec section 4.2: the manager owns the current key
state, a threshold policy (informational), a rotation interval in
milliseconds and the pluggable engine — here the demo ML-KEM adapter, whose
state is its counter. Timestamps are caller-supplied. The open question of
section 9 (key id policy across rotations) is resolved by deriving the id
from the fresh public key, matching the demo output where old and new ids
differ. -/

structure KemKeyState where
  id : List Nat
  version : Nat
  created_at : Nat
deriving DecidableEq

structure KemRotation where
  old : KemKeyState
  new : KemKeyState
  new_material : MlKemKeyPair
deriving DecidableEq

structure KeyManager where
  current : KemKeyState
  policy : ThresholdPolicy
  rotation_interval : Nat
  engineCounter : Nat
deriving DecidableEq

/-- Modelled from the spec: the key id of a fresh key, derived from the key
pair. -/
def deriveKeyId (kp : MlKemKeyPair) : List Nat := kp.public_key

/-- Modelled from the spec: rotate_with_material(now). When
now - created_at < rotation_interval the result is no rotation (not an
error) and the manager is unchanged; when due, fresh key material is drawn
from the engine and the state is replaced by a new one with version
incremented by exactly one and created_at = now. -/
def rotate_with_material (m : KeyManager) (now : Nat) :
    Except PqcError (Option KemRotation × KeyManager) :=
  if now - m.current.created_at < m.rotation_interval then
    Except.ok (none, m)
  else
    match DemoMlKem.keygen m.engineCounter with
    | (Except.ok kp, c2) =>
      let newState : KemKeyState :=
        { id := deriveKeyId kp, version := m.current.version + 1, created_at := now }
      Except.ok (some { old := m.current, new := newState, new_material := kp },
        { m with current := newState, engineCounter := c2 })
    | (Except.error e, _) => Except.error e

/-- C3: rotation gating. Not due means no rotation and an unchanged manager
(and no error); due means a rotation whose new state has version exactly one
more than the old, created_at = now, and whose material is the engine keygen
output at the current engine state, which also becomes the new current
state. -/
theorem C3_rotation_gating :
    ∀ (m : KeyManager) (now : Nat),
      (now - m.current.created_at < m.rotation_interval →
        rotate_with_material m now = Except.ok (none, m)) ∧
      (m.rotation_interval ≤ now - m.current.created_at →
        ∃ (r : KemRotation) (m2 : KeyManager),
          rotate_with_material m now = Except.ok (some r, m2) ∧
          r.old = m.current ∧
          r.new.version = m.current.version + 1 ∧
          r.new.created_at = now ∧
          (Except.ok r.new_material, m2.engineCounter) =
            DemoMlKem.keygen m.engineCounter ∧
          m2.current = r.new) := by
  intro m now
  constructor
  · intro h
    simp [rotate_with_material, h]
  · intro h
    have hlt : ¬ (now - m.current.created_at < m.rotation_interval) := by omega
    simp only [rotate_with_material, if_neg hlt]
    exact ⟨_, _, rfl, rfl, rfl, rfl, rfl, rfl⟩

/-- C3 witness: with creation time 1000 and interval 500, rotation at time
1200 is not due and returns no rotation, and rotation at time 1600 is due
and returns a version-1 state created at 1600. -/
theorem C3_witness :
    ((1200 : Nat) -
      ({ current := ⟨[], 0, 1000⟩, policy := ⟨2, 3⟩, rotation_interval := 500,
         engineCounter := 1 } : KeyManager).current.created_at < 500) ∧
    rotate_with_material
      { current := ⟨[], 0, 1000⟩, policy := ⟨2, 3⟩, rotation_interval := 500,
        engineCounter := 1 } 1200 =
      Except.ok (none,
        { current := ⟨[], 0, 1000⟩, policy := ⟨2, 3⟩, rotation_interval := 500,
          engineCounter := 1 }) ∧
    ((500 : Nat) ≤ (1600 : Nat) -
      ({ current := ⟨[], 0, 1000⟩, policy := ⟨2, 3⟩, rotation_interval := 500,
         engineCounter := 1 } : KeyManager).current.created_at) ∧
    (∃ (r : KemRotation) (m2 : KeyManager),
      rotate_with_material
        { current := ⟨[], 0, 1000⟩, policy := ⟨2, 3⟩, rotation_interval := 500,
          engineCounter := 1 } 1600 = Except.ok (some r, m2) ∧
      r.old = ({ current := ⟨[], 0, 1000⟩, policy := ⟨2, 3⟩,
                 rotation_interval := 500, engineCounter := 1 } : KeyManager).current ∧
      r.new.version = ({ current := ⟨[], 0, 1000⟩, policy := ⟨2, 3⟩,
                         rotation_interval := 500,
                         engineCounter := 1 } : KeyManager).current.version + 1 ∧
      r.new.created_at = 1600 ∧
      (Except.ok r.new_material, m2.engineCounter) = DemoMlKem.keygen 1 ∧
      m2.current = r.new) :=
  ⟨by decide, (C3_rotation_gating _ 1200).1 (by decide), by decide,
   (C3_rotation_gating _ 1600).2 (by decide)⟩
